import Mathlib

/-
Verification of the key-value store core of `kv-api-rs`.

The development shallowly embeds the two source modules that carry the
invariants:

* `src/kv/entry.rs` — the entry codec (`KVEntry::write_to_stream`,
  `KVEntry::write_to_stream_compressed`, `KVEntry::read_from_stream_impl`,
  `KVEntry::read_from_stream`);
* `src/kv/store.rs` — the store (`KVStore::new`, `KVStore::get`,
  `KVStore::set`).

Rust strings are modelled as byte lists together with a UTF-8 validity
predicate (a Rust `String` is exactly a valid-UTF-8 byte sequence), machine
integers as `Nat` with explicit `% 2^w` at the points where the source
casts (`as u16`, `as u32`), and the seekable byte stream as a list of bytes
with an explicit cursor.  The Zstd compressor is an external library
dependency (`async-compression`), not part of this repository; it is kept
abstract as a structure of documented properties of the Zstd format.
-/

set_option autoImplicit false

deriving instance DecidableEq for Except

namespace KV

/-- Kinds of `std::io::Error` the core distinguishes: `UnexpectedEof`
versus every other kind (the store's replay loop matches exactly on
`io::ErrorKind::UnexpectedEof`). -/
inductive IOErrorKind where
  | unexpectedEof
  | other
deriving DecidableEq

/-- Mirror of `KVError` from `src/kv/result.rs`: an I/O error or an
invalid-data error carrying a message. -/
inductive KVError where
  | io (kind : IOErrorKind)
  | invalidData (msg : String)
deriving DecidableEq

/-- Little-endian bytes of `n as u16` (the source casts `usize` lengths with
`as u16`, i.e. reduction mod 2^16). -/
def u16le (n : Nat) : List UInt8 :=
  [UInt8.ofNat n, UInt8.ofNat (n / 256)]

/-- Little-endian bytes of `n as u32` (reduction mod 2^32). -/
def u32le (n : Nat) : List UInt8 :=
  [UInt8.ofNat n, UInt8.ofNat (n / 256), UInt8.ofNat (n / 65536),
    UInt8.ofNat (n / 16777216)]

/-- Value of a little-endian byte sequence, as read by
`u16::from_le_bytes` / `u32::from_le_bytes`. -/
def leToNat (bs : List UInt8) : Nat :=
  bs.foldr (fun b acc => b.toNat + 256 * acc) 0

/-- Is `b` a UTF-8 continuation byte (`10xxxxxx`)? -/
def utf8Cont (b : UInt8) : Bool :=
  0x80 ≤ b && b < 0xC0

/-- The UTF-8 acceptor run byte-by-byte: `pending` is the number of
continuation bytes still owed for the current code point, and `[lo, hi]`
the admissible range for the next such byte (the second byte of a sequence
started by `E0`, `ED`, `F0` or `F4` is restricted to exclude overlong
forms, surrogates and code points above U+10FFFF; later bytes are plain
`80`–`BF` continuations). -/
def utf8ValidA : List UInt8 → Nat → UInt8 → UInt8 → Bool
  | [], pending, _, _ => pending == 0
  | b :: rest, 0, _, _ =>
    if b < 0x80 then utf8ValidA rest 0 0 0
    else if b < 0xC2 then false
    else if b < 0xE0 then utf8ValidA rest 1 0x80 0xBF
    else if b = 0xE0 then utf8ValidA rest 2 0xA0 0xBF
    else if b = 0xED then utf8ValidA rest 2 0x80 0x9F
    else if b < 0xF0 then utf8ValidA rest 2 0x80 0xBF
    else if b = 0xF0 then utf8ValidA rest 3 0x90 0xBF
    else if b < 0xF4 then utf8ValidA rest 3 0x80 0xBF
    else if b = 0xF4 then utf8ValidA rest 3 0x80 0x8F
    else false
  | b :: rest, p + 1, lo, hi =>
    if lo ≤ b && b ≤ hi then utf8ValidA rest p 0x80 0xBF else false

/-- The UTF-8 validity check performed by Rust's `String::from_utf8`:
well-formed 1–4 byte sequences, rejecting overlong forms, surrogates and
code points above U+10FFFF. -/
def utf8Valid (l : List UInt8) : Bool :=
  utf8ValidA l 0 0 0

/-- Mirror of `KVEntry` from `src/kv/entry.rs`: key and MIME type are Rust
`String`s (valid UTF-8 byte sequences), the value is an arbitrary byte
vector. -/
structure KVEntry where
  key : List UInt8
  value : List UInt8
  mime : List UInt8
deriving DecidableEq

/-- Mirror of `Entry` from `src/kv/entry.rs`: the abstract value + MIME
pair stored in the index. -/
structure Entry where
  value : List UInt8
  mime : List UInt8
deriving DecidableEq

/-- Mirror of `Entry::from(KVEntry)`. -/
def KVEntry.toEntry (e : KVEntry) : Entry :=
  ⟨e.value, e.mime⟩

/-- A seekable byte stream: the written bytes, the cursor, and an optional
device capacity past which writes fail with an I/O error (modelling a
failing backing device; `none` is an always-succeeding stream such as a
healthy file). -/
structure ByteStream where
  data : List UInt8
  pos : Nat
  cap : Option Nat
deriving DecidableEq

/-- Mirror of `AsyncReadExt::read_exact`: read exactly `n` bytes at the
cursor, failing with `io::ErrorKind::UnexpectedEof` when fewer than `n`
bytes remain.  `read_exact` keeps reading until the buffer is full or the
source is exhausted, so a failing call consumes every remaining byte: the
error carries the stream with its cursor at the end of the data (or
unchanged when it already sat past the end), mirroring the `&mut` stream
the caller keeps. -/
def readExact (s : ByteStream) (n : Nat) :
    Except (KVError × ByteStream) (List UInt8 × ByteStream) :=
  if s.pos + n ≤ s.data.length then
    .ok ((s.data.drop s.pos).take n, { s with pos := s.pos + n })
  else
    .error (.io .unexpectedEof, { s with pos := max s.pos s.data.length })

/-- Mirror of `AsyncReadExt::read_u8`. -/
def readU8 (s : ByteStream) : Except (KVError × ByteStream) (UInt8 × ByteStream) :=
  match readExact s 1 with
  | .ok (bs, s') => .ok (bs.headD 0, s')
  | .error e => .error e

/-- Mirror of `KVEntry::read_from_stream_impl` (src/kv/entry.rs:95-123):
read the three length-prefixed fields, then validate key and MIME as UTF-8
(key first, as in the source's struct construction). -/
def read_from_stream_impl (s : ByteStream) :
    Except (KVError × ByteStream) (KVEntry × ByteStream) :=
  match readExact s 2 with
  | .error e => .error e
  | .ok (keyLenBytes, s) =>
    match readExact s (leToNat keyLenBytes) with
    | .error e => .error e
    | .ok (key, s) =>
      match readExact s 4 with
      | .error e => .error e
      | .ok (valueLenBytes, s) =>
        match readExact s (leToNat valueLenBytes) with
        | .error e => .error e
        | .ok (value, s) =>
          match readExact s 2 with
          | .error e => .error e
          | .ok (mimeLenBytes, s) =>
            match readExact s (leToNat mimeLenBytes) with
            | .error e => .error e
            | .ok (mime, s) =>
              if utf8Valid key then
                if utf8Valid mime then
                  .ok (⟨key, value, mime⟩, s)
                else .error (.invalidData "Invalid UTF-8 in MIME", s)
              else .error (.invalidData "Invalid UTF-8 in key", s)

/-- Mirror of `KVEntry::read_from_stream` (src/kv/entry.rs:128-144): read
the flags byte; if bit 7 (`Flags::ZstdCompressed`) is set, read the 4-byte
frame length and that many frame bytes, then decode the raw body from the
buffered block.  Note the source fills `decomp_stream` with
`tokio::io::copy(&mut &in_stream[..], ..)` — a byte-for-byte copy; the
imported `ZstdDecoder` is never applied, so the block is parsed without
decompression.  An error from parsing the buffered block is paired with
the outer stream (whose cursor sits after the frame), since the in-memory
block's cursor is dropped with the block. -/
def read_from_stream (s : ByteStream) :
    Except (KVError × ByteStream) (KVEntry × ByteStream) :=
  match readU8 s with
  | .error e => .error e
  | .ok (flags, s) =>
    if flags &&& 0x80 ≠ 0 then
      match readExact s 4 with
      | .error e => .error e
      | .ok (inLenBytes, s) =>
        match readExact s (leToNat inLenBytes) with
        | .error e => .error e
        | .ok (inStream, s) =>
          let decompStream := inStream
          match read_from_stream_impl ⟨decompStream, 0, none⟩ with
          | .error e => .error (e.fst, s)
          | .ok (entry, _) => .ok (entry, s)
    else
      read_from_stream_impl s

/-- Mirror of `AsyncWriteExt::write_all`: overwrite/extend the byte list at
the cursor.  On a capacity-limited stream a write that would pass the
capacity fails with a non-EOF I/O error, leaving the bytes that fit
(modelling a partially completed `write_all`); the mutated stream is
carried in the error so the caller's `&mut` stream state is preserved. -/
def writeAll (s : ByteStream) (bs : List UInt8) : Except (KVError × ByteStream) ByteStream :=
  match s.cap with
  | none =>
    .ok ⟨s.data.take s.pos ++ bs ++ s.data.drop (s.pos + bs.length), s.pos + bs.length, none⟩
  | some c =>
    if s.pos + bs.length ≤ c then
      .ok ⟨s.data.take s.pos ++ bs ++ s.data.drop (s.pos + bs.length), s.pos + bs.length, some c⟩
    else
      .error (⟨.io .other,
        ⟨s.data.take s.pos ++ bs.take (c - s.pos) ++ s.data.drop c, min c (s.pos + bs.length),
          some c⟩⟩)

/-- Mirror of `AsyncSeekExt::seek(SeekFrom::Start(p))`. -/
def seekTo (s : ByteStream) (p : Nat) : ByteStream :=
  { s with pos := p }

/-- Raw encoding body shared by both encodings:
`key_len: u16 LE | key | value_len: u32 LE | value | mime_len: u16 LE | mime`,
with the lengths cast exactly as the source does (`as u16` / `as u32`). -/
def rawBody (e : KVEntry) : List UInt8 :=
  u16le e.key.length ++ e.key ++ u32le e.value.length ++ e.value ++
    u16le e.mime.length ++ e.mime

/-- Mirror of `KVEntry::write_to_stream` (src/kv/entry.rs:33-51): flags byte
`Flags::None = 0x00`, then the raw body, each field written with
`write_all`. -/
def write_to_stream (e : KVEntry) (s : ByteStream) : Except (KVError × ByteStream) ByteStream :=
  match writeAll s [0x00] with
  | .error err => .error err
  | .ok s =>
    match writeAll s (u16le e.key.length) with
    | .error err => .error err
    | .ok s =>
      match writeAll s e.key with
      | .error err => .error err
      | .ok s =>
        match writeAll s (u32le e.value.length) with
        | .error err => .error err
        | .ok s =>
          match writeAll s e.value with
          | .error err => .error err
          | .ok s =>
            match writeAll s (u16le e.mime.length) with
            | .error err => .error err
            | .ok s =>
              match writeAll s e.mime with
              | .error err => .error err
              | .ok s => .ok s

/-- Modelled from the spec: the streaming Zstd compressor
(`async_compression::tokio::write::ZstdEncoder`) is an external library,
not code of this repository.  Per the spec, the encoder turns the raw body
streamed through it into "a self-contained compression frame whose
decompressed content is exactly the raw encoding body", emitted when the
encoder is flushed and finalized.  Two further documented facts about the
Zstd format are recorded: every frame begins with the magic bytes
`28 B5 2F FD` (the little-endian magic number `0xFD2FB528`), and the
compressed size is bounded (`ZSTD_compressBound`-style bound). -/
structure Zstd where
  compress : List UInt8 → List UInt8
  decompress : List UInt8 → Option (List UInt8)
  decompress_compress : ∀ b, decompress (compress b) = some b
  compress_take4 : ∀ b, (compress b).take 4 = [0x28, 0xB5, 0x2F, 0xFD]
  compress_len_le : ∀ b, (compress b).length ≤ b.length + b.length / 256 + 512

/-- Mirror of `KVEntry::write_to_stream_compressed` (src/kv/entry.rs:57-90):
write the flags byte `Flags::ZstdCompressed = 0x80`; remember position `P`;
write a 4-byte zero placeholder; remember position `S`; stream the raw body
through the Zstd encoder and flush it, emitting the compression frame;
remember position `E`; seek back to `P`; overwrite the placeholder with
`(E − S) as u32` little-endian; seek forward to `E`. -/
def write_to_stream_compressed (M : Zstd) (e : KVEntry) (s : ByteStream) :
    Except (KVError × ByteStream) ByteStream :=
  match writeAll s [0x80] with
  | .error err => .error err
  | .ok s =>
    let pos := s.pos
    match writeAll s (u32le 0) with
    | .error err => .error err
    | .ok s =>
      let start := s.pos
      match writeAll s (M.compress (rawBody e)) with
      | .error err => .error err
      | .ok s =>
        let endPos := s.pos
        let s := seekTo s pos
        match writeAll s (u32le (endPos - start)) with
        | .error err => .error err
        | .ok s => .ok (seekTo s endPos)

/-- The in-memory index: mirror of `HashMap<String, Entry>`, modelled as an
association list with unique keys. -/
abbrev Index : Type :=
  List (List UInt8 × Entry)

/-- Mirror of `HashMap::insert`: replace the entry in place when the key is
present, append it otherwise. -/
def insertA (m : Index) (k : List UInt8) (v : Entry) : Index :=
  if m.any (fun p => p.fst == k) then
    m.map (fun p => if p.fst == k then (k, v) else p)
  else
    m ++ [(k, v)]

/-- Mirror of `HashMap::get`. -/
def lookupA (m : Index) (k : List UInt8) : Option Entry :=
  (m.find? (fun p => p.fst == k)).map Prod.snd

/-- The replay loop body of `KVStore::new` (src/kv/store.rs:47-69): decode
records and insert them until a decode fails; an `UnexpectedEof` I/O error
terminates the loop successfully with the stream as the failed read left
it (its cursor sits where the failed `read_exact` stopped), any other
error is propagated.  The loop is embedded with explicit fuel;
`KVStore.new` passes `data.length + 1`, which is never exhausted because
every successful decode consumes at least one byte (see
`replayFuel_through` / `length_le_encodeAll`). -/
def replayFuel : Nat → ByteStream → Index → Except KVError (Index × ByteStream)
  | 0, s, m => .ok (m, s)
  | fuel + 1, s, m =>
    match read_from_stream s with
    | .ok (e, s') => replayFuel fuel s' (insertA m e.key e.toEntry)
    | .error (.io .unexpectedEof, s') => .ok (m, s')
    | .error (err, _) => .error err

/-- Mirror of `KVStore`: the in-memory index plus the backing stream. -/
structure KVStore where
  entries : Index
  stream : ByteStream
deriving DecidableEq

/-- Mirror of `KVStore::new` (src/kv/store.rs:44-75): seek to offset 0,
replay the whole log into a fresh index. -/
def KVStore.new (backing : ByteStream) : Except KVError KVStore :=
  match replayFuel (backing.data.length + 1) (seekTo backing 0) [] with
  | .ok (m, s) => .ok ⟨m, s⟩
  | .error e => .error e

/-- Mirror of `KVStore::get` (src/kv/store.rs:78-84): pure index lookup. -/
def KVStore.get (st : KVStore) (k : List UInt8) : Option Entry :=
  lookupA st.entries k

/-- Mirror of `KVStore::set` (src/kv/store.rs:94-120): encode compressed if
the value exceeds 1024 bytes, raw otherwise; insert into the index only
after the append succeeded.  The pair carries the result together with the
(`&mut self`) store state after the call. -/
def KVStore.set (M : Zstd) (st : KVStore) (k : List UInt8) (v : Entry) :
    Except KVError Unit × KVStore :=
  let kvEntry : KVEntry := ⟨k, v.value, v.mime⟩
  let res :=
    if 1024 < v.value.length then
      write_to_stream_compressed M kvEntry st.stream
    else
      write_to_stream kvEntry st.stream
  match res with
  | .ok s' => (.ok (), ⟨insertA st.entries k v, s'⟩)
  | .error (err, s') => (.error err, ⟨st.entries, s'⟩)

/-- Pure form of the raw record encoding (the byte sequence
`write_to_stream` appends). -/
def encodeRawBytes (e : KVEntry) : List UInt8 :=
  0x00 :: rawBody e

/-- Pure form of the compressed record encoding (the byte sequence
`write_to_stream_compressed` leaves on the stream after the backpatch). -/
def encodeCompressedBytes (M : Zstd) (e : KVEntry) : List UInt8 :=
  0x80 :: (u32le (M.compress (rawBody e)).length ++ M.compress (rawBody e))

/-- Decode one record from a standalone byte sequence, discarding the
stream state. -/
def readEntryBytes (data : List UInt8) : Except KVError KVEntry :=
  match read_from_stream ⟨data, 0, none⟩ with
  | .ok (e, _) => .ok e
  | .error (err, _) => .error err

/-- The index produced by replaying a list of records in order. -/
def replayIndex (rs : List KVEntry) : Index :=
  rs.foldl (fun m e => insertA m e.key e.toEntry) []

/-- Stated from the spec's words: the last value written for a key in
stream order ("last write wins"). -/
def lastWrite (rs : List KVEntry) (k : List UInt8) : Option Entry :=
  rs.foldl (fun acc e => if e.key = k then some e.toEntry else acc) none

/-- A record the encoder and decoder agree on: UTF-8 strings within the
`u16` length fields, value within the `u32` length field. -/
def wfEntry (e : KVEntry) : Prop :=
  utf8Valid e.key = true ∧ utf8Valid e.mime = true ∧
    e.key.length < 65536 ∧ e.mime.length < 65536 ∧ e.value.length < 4294967296

instance (e : KVEntry) : Decidable (wfEntry e) := by
  unfold wfEntry
  infer_instance

/-- The four magic bytes opening every Zstd frame. -/
def zstdMagic : List UInt8 :=
  [0x28, 0xB5, 0x2F, 0xFD]

/-- A concrete compressor satisfying the `Zstd` interface, used to evaluate
the development on closed inputs: it frames the input behind the magic and
an explicit length field. -/
def storeCompress (b : List UInt8) : List UInt8 :=
  zstdMagic ++ u32le b.length ++ b

/-- Inverse of `storeCompress`. -/
def storeDecompress (b : List UInt8) : Option (List UInt8) :=
  if b.take 4 = zstdMagic then some (b.drop 8) else none

/-- The concrete `Zstd` instance built from `storeCompress`. -/
def zstdStore : Zstd where
  compress := storeCompress
  decompress := storeDecompress
  decompress_compress := by
    intro b
    simp [storeCompress, storeDecompress, zstdMagic, u32le]
  compress_take4 := by
    intro b
    simp [storeCompress, zstdMagic, u32le]
  compress_len_le := by
    intro b
    simp only [storeCompress, zstdMagic, u32le, List.length_append, List.length_cons,
      List.length_nil]
    omega

theorem leToNat_u16le (n : Nat) : leToNat (u16le n) = n % 65536 := by
  have h1 : (UInt8.ofNat n).toNat = n % 256 := rfl
  have h2 : (UInt8.ofNat (n / 256)).toNat = n / 256 % 256 := rfl
  simp only [u16le, leToNat, List.foldr_cons, List.foldr_nil, h1, h2]
  omega

theorem leToNat_u32le (n : Nat) : leToNat (u32le n) = n % 4294967296 := by
  have h1 : (UInt8.ofNat n).toNat = n % 256 := rfl
  have h2 : (UInt8.ofNat (n / 256)).toNat = n / 256 % 256 := rfl
  have h3 : (UInt8.ofNat (n / 65536)).toNat = n / 65536 % 256 := rfl
  have h4 : (UInt8.ofNat (n / 16777216)).toNat = n / 16777216 % 256 := rfl
  simp only [u32le, leToNat, List.foldr_cons, List.foldr_nil, h1, h2, h3, h4]
  omega

theorem u16le_length (n : Nat) : (u16le n).length = 2 := rfl

theorem u32le_length (n : Nat) : (u32le n).length = 4 := rfl

theorem encodeRawBytes_length (e : KVEntry) :
    (encodeRawBytes e).length = 9 + e.key.length + e.value.length + e.mime.length := by
  simp only [encodeRawBytes, rawBody, List.length_cons, List.length_append, u16le_length,
    u32le_length]
  omega

/-- Successful `readExact`: when the bytes after the cursor start with a
chunk of the demanded length, exactly that chunk is returned and the cursor
advances past it. -/
theorem readExact_step (d : List UInt8) (p n : Nat) (c : Option Nat) (chunk rest : List UInt8)
    (hd : d.drop p = chunk ++ rest) (hn : chunk.length = n) (hp : p ≤ d.length) :
    readExact ⟨d, p, c⟩ n = .ok (chunk, ⟨d, p + n, c⟩) ∧
      d.drop (p + n) = rest ∧ p + n ≤ d.length := by
  have hlen : d.length - p = chunk.length + rest.length := by
    rw [← List.length_drop, hd, List.length_append]
  have hle : p + n ≤ d.length := by omega
  refine ⟨?_, ?_, hle⟩
  · unfold readExact
    rw [if_pos hle]
    have ht : (d.drop p).take n = chunk := by
      rw [hd, ← hn, List.take_left]
    rw [ht]
  · have hdd : d.drop (p + n) = (d.drop p).drop n := by
      rw [List.drop_drop]
    rw [hdd, hd, ← hn, List.drop_left]

/-- Failing `readExact`: demanding more bytes than remain yields
`UnexpectedEof`, the failed read consuming everything up to the end of the
data. -/
theorem readExact_fail {d : List UInt8} {p n : Nat} {c : Option Nat}
    (h : d.length < p + n) :
    readExact ⟨d, p, c⟩ n = .error (.io .unexpectedEof, ⟨d, max p d.length, c⟩) := by
  unfold readExact
  dsimp only
  rw [if_neg]
  omega

/-- `readExact_fail` for a cursor within the data: the error stream's
cursor lands at the end of the data. -/
theorem readExact_fail_within {d : List UInt8} {p n : Nat} {c : Option Nat}
    (h : d.length < p + n) (hp : p ≤ d.length) :
    readExact ⟨d, p, c⟩ n = .error (.io .unexpectedEof, ⟨d, d.length, c⟩) := by
  rw [readExact_fail h, Nat.max_eq_right hp]

theorem readU8_step (d : List UInt8) (p : Nat) (c : Option Nat) (b : UInt8)
    (rest : List UInt8) (hd : d.drop p = b :: rest) (hp : p ≤ d.length) :
    readU8 ⟨d, p, c⟩ = .ok (b, ⟨d, p + 1, c⟩) ∧
      d.drop (p + 1) = rest ∧ p + 1 ≤ d.length := by
  have hstep := readExact_step d p 1 c [b] rest (by simpa using hd) rfl hp
  refine ⟨?_, hstep.2⟩
  unfold readU8
  rw [hstep.1]
  rfl

theorem readU8_fail {d : List UInt8} {p : Nat} {c : Option Nat} (h : d.length < p + 1) :
    readU8 ⟨d, p, c⟩ = .error (.io .unexpectedEof, ⟨d, p, c⟩) := by
  unfold readU8
  rw [readExact_fail h, Nat.max_eq_left (by omega)]

/-- Decoding a well-formed raw record embedded in a stream returns exactly
that record and leaves the cursor at its end. -/
theorem read_encodeRaw {e : KVEntry} (hw : wfEntry e) (d : List UInt8) (p : Nat)
    (c : Option Nat) {rest : List UInt8}
    (hd : d.drop p = encodeRawBytes e ++ rest) (hp : p ≤ d.length) :
    read_from_stream ⟨d, p, c⟩ = .ok (e, ⟨d, p + (encodeRawBytes e).length, c⟩) ∧
      d.drop (p + (encodeRawBytes e).length) = rest ∧
      p + (encodeRawBytes e).length ≤ d.length := by
  obtain ⟨hk, hm, hkl, hml, hvl⟩ := hw
  have h0 : d.drop p = 0x00 :: (rawBody e ++ rest) := by
    simpa [encodeRawBytes] using hd
  have s1 := readU8_step d p c _ _ h0 hp
  have h1 : d.drop (p + 1) =
      u16le e.key.length ++ (e.key ++ (u32le e.value.length ++ (e.value ++
        (u16le e.mime.length ++ (e.mime ++ rest))))) := by
    rw [s1.2.1]
    simp [rawBody]
  have s2 := readExact_step d (p + 1) 2 c _ _ h1 (u16le_length e.key.length) s1.2.2
  have s3 := readExact_step d (p + 1 + 2) e.key.length c _ _ s2.2.1 rfl s2.2.2
  have s4 := readExact_step d (p + 1 + 2 + e.key.length) 4 c _ _ s3.2.1
    (u32le_length e.value.length) s3.2.2
  have s5 := readExact_step d (p + 1 + 2 + e.key.length + 4) e.value.length c _ _ s4.2.1
    rfl s4.2.2
  have s6 := readExact_step d (p + 1 + 2 + e.key.length + 4 + e.value.length) 2 c _ _ s5.2.1
    (u16le_length e.mime.length) s5.2.2
  have s7 := readExact_step d (p + 1 + 2 + e.key.length + 4 + e.value.length + 2)
    e.mime.length c _ _ s6.2.1 rfl s6.2.2
  have hkl' : leToNat (u16le e.key.length) = e.key.length := by
    rw [leToNat_u16le, Nat.mod_eq_of_lt hkl]
  have hvl' : leToNat (u32le e.value.length) = e.value.length := by
    rw [leToNat_u32le, Nat.mod_eq_of_lt hvl]
  have hml' : leToNat (u16le e.mime.length) = e.mime.length := by
    rw [leToNat_u16le, Nat.mod_eq_of_lt hml]
  have hflags : ¬((0x00 : UInt8) &&& 0x80 ≠ 0) := by decide
  have hlen : p + 1 + 2 + e.key.length + 4 + e.value.length + 2 + e.mime.length =
      p + (encodeRawBytes e).length := by
    rw [encodeRawBytes_length]
    omega
  have hmain : read_from_stream ⟨d, p, c⟩ =
      .ok (e, ⟨d, p + 1 + 2 + e.key.length + 4 + e.value.length + 2 + e.mime.length, c⟩) := by
    rw [read_from_stream, s1.1]
    simp only [hflags, if_false, read_from_stream_impl, s2.1, hkl', s3.1, s4.1, hvl', s5.1,
      s6.1, hml', s7.1, hk, hm, if_true]
  refine ⟨?_, ?_, ?_⟩
  · rw [hmain, hlen]
  · rw [← hlen]
    exact s7.2.1
  · rw [← hlen]
    exact s7.2.2

theorem read_from_stream_eof {d : List UInt8} {p : Nat} {c : Option Nat}
    (h : d.length < p + 1) :
    read_from_stream ⟨d, p, c⟩ = .error (.io .unexpectedEof, ⟨d, p, c⟩) := by
  rw [read_from_stream, readU8_fail h]

/-- `readEntryBytes` surfaces the error kind of a failed decode. -/
theorem readEntryBytes_error (data : List UInt8) (err : KVError) (s : ByteStream)
    (h : read_from_stream ⟨data, 0, none⟩ = .error (err, s)) :
    readEntryBytes data = .error err := by
  unfold readEntryBytes
  rw [h]

/-- An unlimited stream appends successfully when the cursor sits at the
end of the written bytes. -/
theorem writeAll_end (d : List UInt8) (p : Nat) (bs : List UInt8) (hp : p = d.length) :
    writeAll ⟨d, p, none⟩ bs = .ok ⟨d ++ bs, p + bs.length, none⟩ := by
  subst hp
  unfold writeAll
  dsimp only
  rw [List.take_length, List.drop_eq_nil_of_le (by omega), List.append_nil]

/-- An unlimited stream overwrites in place: with the cursor at the end of
`d1`, writing over a mid-segment of matching length patches it, leaving
the rest intact. -/
theorem writeAll_patch (d1 mid d2 bs : List UInt8)
    (hb : bs.length = mid.length) :
    writeAll ⟨d1 ++ (mid ++ d2), d1.length, none⟩ bs =
      .ok ⟨d1 ++ (bs ++ d2), d1.length + bs.length, none⟩ := by
  unfold writeAll
  dsimp only
  rw [List.take_left]
  have hdrop : (d1 ++ (mid ++ d2)).drop (d1.length + bs.length) = d2 := by
    rw [← List.append_assoc]
    exact List.drop_left' (by rw [List.length_append, hb])
  rw [hdrop, List.append_assoc]

/-- `write_to_stream` appends exactly the raw record encoding. -/
theorem write_to_stream_end (e : KVEntry) {d : List UInt8} {p : Nat} (hp : p = d.length) :
    write_to_stream e ⟨d, p, none⟩ =
      .ok ⟨d ++ encodeRawBytes e, p + (encodeRawBytes e).length, none⟩ := by
  subst hp
  have hl : ∀ l₁ l₂ : List UInt8, (l₁ ++ l₂).length = l₁.length + l₂.length :=
    fun l₁ l₂ => List.length_append l₁ l₂
  have w1 := writeAll_end d d.length [0x00] rfl
  have w2 := writeAll_end (d ++ [0x00]) (d.length + 1) (u16le e.key.length)
    (by rw [hl]; rfl)
  have w3 := writeAll_end ((d ++ [0x00]) ++ u16le e.key.length) (d.length + 1 + 2) e.key
    (by simp only [hl, u16le_length]; rfl)
  have w4 := writeAll_end (((d ++ [0x00]) ++ u16le e.key.length) ++ e.key)
    (d.length + 1 + 2 + e.key.length) (u32le e.value.length)
    (by simp only [hl, u16le_length]; rfl)
  have w5 := writeAll_end
    ((((d ++ [0x00]) ++ u16le e.key.length) ++ e.key) ++ u32le e.value.length)
    (d.length + 1 + 2 + e.key.length + 4) e.value
    (by simp only [hl, u16le_length, u32le_length]; rfl)
  have w6 := writeAll_end
    (((((d ++ [0x00]) ++ u16le e.key.length) ++ e.key) ++ u32le e.value.length) ++ e.value)
    (d.length + 1 + 2 + e.key.length + 4 + e.value.length) (u16le e.mime.length)
    (by simp only [hl, u16le_length, u32le_length]; rfl)
  have w7 := writeAll_end
    ((((((d ++ [0x00]) ++ u16le e.key.length) ++ e.key) ++ u32le e.value.length) ++
      e.value) ++ u16le e.mime.length)
    (d.length + 1 + 2 + e.key.length + 4 + e.value.length + 2) e.mime
    (by simp only [hl, u16le_length, u32le_length]; rfl)
  simp only [u16le_length, u32le_length, List.length_cons, List.length_nil,
    Nat.zero_add] at w1 w2 w3 w4 w5 w6 w7
  rw [write_to_stream]
  simp only [w1, w2, w3, w4, w5, w6, w7]
  have hdata : ((((((d ++ [0x00]) ++ u16le e.key.length) ++ e.key) ++ u32le e.value.length) ++
      e.value) ++ u16le e.mime.length) ++ e.mime = d ++ encodeRawBytes e := by
    simp [encodeRawBytes, rawBody]
  have hpos : d.length + 1 + 2 + e.key.length + 4 + e.value.length + 2 + e.mime.length =
      d.length + (encodeRawBytes e).length := by
    rw [encodeRawBytes_length]
    omega
  rw [hdata, hpos]

/-- `write_to_stream_compressed` appends the compressed record encoding:
the frame-length field left after the backpatch is exactly the frame
length, and the cursor ends at the frame end. -/
theorem write_to_stream_compressed_end (M : Zstd) (e : KVEntry) {d : List UInt8} {p : Nat}
    (hp : p = d.length) :
    write_to_stream_compressed M e ⟨d, p, none⟩ =
      .ok ⟨d ++ encodeCompressedBytes M e, p + (encodeCompressedBytes M e).length, none⟩ := by
  subst hp
  have hl : ∀ l₁ l₂ : List UInt8, (l₁ ++ l₂).length = l₁.length + l₂.length :=
    fun l₁ l₂ => List.length_append l₁ l₂
  have w1 := writeAll_end d d.length [0x80] rfl
  have w2 := writeAll_end (d ++ [0x80]) (d.length + 1) (u32le 0) (by rw [hl]; rfl)
  have w3 := writeAll_end ((d ++ [0x80]) ++ u32le 0) (d.length + 1 + 4)
    (M.compress (rawBody e)) (by simp only [hl, u32le_length]; rfl)
  simp only [u32le_length, List.length_cons, List.length_nil, Nat.zero_add] at w1 w2 w3
  rw [write_to_stream_compressed]
  simp only [w1, w2, w3]
  dsimp only [seekTo]
  have hshape : ((d ++ [0x80]) ++ u32le 0) ++ M.compress (rawBody e) =
      (d ++ [0x80]) ++ (u32le 0 ++ M.compress (rawBody e)) := by
    rw [List.append_assoc]
  have hpos : d.length + 1 + 4 + (M.compress (rawBody e)).length -
      (d.length + 1 + 4) = (M.compress (rawBody e)).length := by
    omega
  have hd1 : d.length + 1 = (d ++ [0x80]).length := by
    rw [hl]
    rfl
  rw [hshape, hpos, hd1]
  have wp := writeAll_patch (d ++ [0x80]) (u32le 0) (M.compress (rawBody e))
    (u32le (M.compress (rawBody e)).length) (by rw [u32le_length, u32le_length])
  simp only [wp]
  have hdata : (d ++ [0x80]) ++
      (u32le (M.compress (rawBody e)).length ++ M.compress (rawBody e)) =
      d ++ encodeCompressedBytes M e := by
    simp [encodeCompressedBytes]
  have hpos2 : (d ++ [0x80]).length + 4 + (M.compress (rawBody e)).length =
      d.length + (encodeCompressedBytes M e).length := by
    simp only [encodeCompressedBytes, List.length_cons, hl, u32le_length, List.length_nil]
    omega
  rw [hdata]
  rw [hpos2]

theorem find?_map_replace (m : Index) (k : List UInt8) (v : Entry)
    (h : m.any (fun p => p.fst == k) = true) :
    (m.map (fun p => if p.fst == k then (k, v) else p)).find? (fun p => p.fst == k) =
      some (k, v) := by
  induction m with
  | nil => simp at h
  | cons q t ih =>
    rw [List.any_cons] at h
    rw [List.map_cons]
    cases hqk : (q.fst == k) with
    | true =>
      rw [if_pos rfl]
      exact List.find?_cons_of_pos _ (by simp)
    | false =>
      rw [if_neg Bool.false_ne_true, List.find?_cons_of_neg _ (by simp [hqk])]
      rw [hqk, Bool.false_or] at h
      exact ih h

theorem find?_map_replace_other (m : Index) (k : List UInt8) (v : Entry) (k' : List UInt8)
    (hne : k' ≠ k) :
    (m.map (fun p => if p.fst == k then (k, v) else p)).find? (fun p => p.fst == k') =
      m.find? (fun p => p.fst == k') := by
  induction m with
  | nil => rfl
  | cons q t ih =>
    rw [List.map_cons]
    cases hqk : (q.fst == k) with
    | true =>
      have hq : q.fst = k := eq_of_beq hqk
      have hkk' : (k == k') = false := beq_eq_false_iff_ne.mpr (Ne.symm hne)
      rw [if_pos rfl, List.find?_cons_of_neg _ (by simp [hkk']),
        List.find?_cons_of_neg _ (by simp [hq, hkk'])]
      exact ih
    | false =>
      rw [if_neg Bool.false_ne_true]
      cases hqk' : (q.fst == k') with
      | true =>
        rw [List.find?_cons_of_pos _ (by simp [hqk']), List.find?_cons_of_pos _ (by simp [hqk'])]
      | false =>
        rw [List.find?_cons_of_neg _ (by simp [hqk']),
          List.find?_cons_of_neg _ (by simp [hqk'])]
        exact ih

theorem lookupA_insertA_self (m : Index) (k : List UInt8) (v : Entry) :
    lookupA (insertA m k v) k = some v := by
  unfold insertA lookupA
  cases ha : m.any (fun p => p.fst == k) with
  | true =>
    rw [if_pos rfl, find?_map_replace m k v ha]
    rfl
  | false =>
    rw [if_neg Bool.false_ne_true, List.find?_append]
    have hnone : m.find? (fun p => p.fst == k) = none := by
      rw [List.find?_eq_none]
      intro q hq
      have := List.any_eq_false.mp ha q hq
      simpa using this
    rw [hnone]
    simp [List.find?]

theorem lookupA_insertA_other (m : Index) (k : List UInt8) (v : Entry) (k' : List UInt8)
    (hne : k' ≠ k) :
    lookupA (insertA m k v) k' = lookupA m k' := by
  unfold insertA lookupA
  cases ha : m.any (fun p => p.fst == k) with
  | true =>
    rw [if_pos rfl, find?_map_replace_other m k v k' hne]
  | false =>
    rw [if_neg Bool.false_ne_true, List.find?_append]
    have hlast : (([(k, v)] : Index).find? fun p => p.fst == k') = none := by
      have : (k == k') = false := beq_eq_false_iff_ne.mpr (Ne.symm hne)
      simp [List.find?, this]
    rw [hlast, Option.or_none]

theorem insertA_keys (m : Index) (k : List UInt8) (v : Entry) :
    (insertA m k v).map Prod.fst =
      if m.any (fun p => p.fst == k) = true then m.map Prod.fst
      else m.map Prod.fst ++ [k] := by
  unfold insertA
  cases ha : m.any (fun p => p.fst == k) with
  | true =>
    rw [if_pos rfl, if_pos rfl, List.map_map]
    refine List.map_congr_left ?_
    intro q hq
    by_cases hqk : q.fst = k
    · simp [hqk]
    · simp [hqk]
  | false =>
    rw [if_neg Bool.false_ne_true, if_neg Bool.false_ne_true]
    simp

theorem insertA_length (m : Index) (k : List UInt8) (v : Entry) :
    (insertA m k v).length =
      if m.any (fun p => p.fst == k) = true then m.length else m.length + 1 := by
  unfold insertA
  cases ha : m.any (fun p => p.fst == k) with
  | true => simp
  | false => simp

theorem insertA_keys_invariant (m : Index) (k : List UInt8) (v : Entry)
    (hn : (m.map Prod.fst).Nodup) :
    ((insertA m k v).map Prod.fst).Nodup ∧
      ((insertA m k v).map Prod.fst).toFinset = insert k (m.map Prod.fst).toFinset := by
  have h := insertA_keys m k v
  cases ha : m.any (fun p => p.fst == k) with
  | true =>
    rw [ha] at h
    simp only [if_pos rfl] at h
    have hk : k ∈ m.map Prod.fst := by
      obtain ⟨q, hq, hqk⟩ := List.any_eq_true.mp ha
      exact List.mem_map.mpr ⟨q, hq, eq_of_beq hqk⟩
    rw [h]
    exact ⟨hn, (Finset.insert_eq_self.mpr (List.mem_toFinset.mpr hk)).symm⟩
  | false =>
    rw [ha] at h
    simp only [if_neg Bool.false_ne_true] at h
    have hk : k ∉ m.map Prod.fst := by
      intro hmem
      obtain ⟨q, hq, hqk⟩ := List.mem_map.mp hmem
      have := List.any_eq_false.mp ha q hq
      simp [hqk] at this
    rw [h]
    constructor
    · rw [List.nodup_append]
      refine ⟨hn, List.nodup_singleton k, ?_⟩
      intro a hamem hasing
      rw [List.mem_singleton] at hasing
      exact hk (hasing ▸ hamem)
    · rw [List.toFinset_append]
      simp [Finset.union_comm, Finset.insert_eq]

theorem replayFold_keys (rs : List KVEntry) :
    ∀ m : Index, (m.map Prod.fst).Nodup →
      ((rs.foldl (fun acc e => insertA acc e.key e.toEntry) m).map Prod.fst).Nodup ∧
        ((rs.foldl (fun acc e => insertA acc e.key e.toEntry) m).map Prod.fst).toFinset =
          (rs.map KVEntry.key).toFinset ∪ (m.map Prod.fst).toFinset := by
  induction rs with
  | nil =>
    intro m hn
    exact ⟨hn, by simp⟩
  | cons e rs ih =>
    intro m hn
    have hstep := insertA_keys_invariant m e.key e.toEntry hn
    have hrec := ih (insertA m e.key e.toEntry) hstep.1
    rw [List.foldl_cons]
    refine ⟨hrec.1, ?_⟩
    rw [hrec.2, hstep.2, List.map_cons, List.toFinset_cons, Finset.union_insert,
      Finset.insert_union]

theorem replayIndex_length (rs : List KVEntry) :
    (replayIndex rs).length = (rs.map KVEntry.key).toFinset.card := by
  have h := replayFold_keys rs [] (by simp)
  unfold replayIndex
  rw [← List.length_map (rs.foldl (fun acc e => insertA acc e.key e.toEntry) []) Prod.fst,
    ← List.toFinset_card_of_nodup h.1, h.2]
  simp

theorem lastWriteFold (rs : List KVEntry) (k : List UInt8) :
    ∀ i : Option Entry,
      rs.foldl (fun acc e => if e.key = k then some e.toEntry else acc) i =
        match rs.foldl (fun acc e => if e.key = k then some e.toEntry else acc) none with
        | some v => some v
        | none => i := by
  induction rs with
  | nil => intro i; rfl
  | cons e rs ih =>
    intro i
    rw [List.foldl_cons, List.foldl_cons, ih (if e.key = k then some e.toEntry else i),
      ih (if e.key = k then some e.toEntry else none)]
    cases rs.foldl (fun acc e => if e.key = k then some e.toEntry else acc) none with
    | some v => rfl
    | none =>
      by_cases hek : e.key = k
      · rw [if_pos hek, if_pos hek]
      · rw [if_neg hek, if_neg hek]

theorem lastWrite_cons (e : KVEntry) (rs : List KVEntry) (k : List UInt8) :
    lastWrite (e :: rs) k =
      match lastWrite rs k with
      | some v => some v
      | none => if e.key = k then some e.toEntry else none := by
  unfold lastWrite
  rw [List.foldl_cons, lastWriteFold rs k]

theorem lookupA_replayFold (rs : List KVEntry) :
    ∀ (m : Index) (k : List UInt8),
      lookupA (rs.foldl (fun acc e => insertA acc e.key e.toEntry) m) k =
        match lastWrite rs k with
        | some v => some v
        | none => lookupA m k := by
  induction rs with
  | nil =>
    intro m k
    cases h : lastWrite ([] : List KVEntry) k with
    | some v => exact absurd h (by unfold lastWrite; simp)
    | none => rfl
  | cons e rs ih =>
    intro m k
    rw [List.foldl_cons, ih (insertA m e.key e.toEntry) k, lastWrite_cons]
    cases hlw : lastWrite rs k with
    | some v => rfl
    | none =>
      by_cases hek : e.key = k
      · rw [if_pos hek, hek, lookupA_insertA_self]
      · rw [if_neg hek, lookupA_insertA_other m e.key e.toEntry k (fun h => hek h.symm)]

theorem lookupA_replayIndex (rs : List KVEntry) (k : List UInt8) :
    lookupA (replayIndex rs) k = lastWrite rs k := by
  unfold replayIndex
  rw [lookupA_replayFold rs [] k]
  cases h : lastWrite rs k with
  | some v => rfl
  | none => rfl

theorem utf8Valid_cons_a (l : List UInt8) : utf8Valid (97 :: l) = utf8Valid l := by
  unfold utf8Valid
  rfl

theorem utf8Valid_replicate_a (n : Nat) : utf8Valid (List.replicate n 97) = true := by
  induction n with
  | zero => rfl
  | succ n ih =>
    rw [List.replicate_succ, utf8Valid_cons_a]
    exact ih

theorem write_to_stream_ok (e : KVEntry) (d : List UInt8) (p : Nat) :
    ∃ s', write_to_stream e ⟨d, p, none⟩ = .ok s' :=
  ⟨_, rfl⟩

theorem write_to_stream_compressed_ok (M : Zstd) (e : KVEntry) (d : List UInt8) (p : Nat) :
    ∃ s', write_to_stream_compressed M e ⟨d, p, none⟩ = .ok s' :=
  ⟨_, rfl⟩

/-- C8: the raw encoding (`write_to_stream`) writes exactly the flags byte
`0x00`, then `key_len: u16 LE`, the key bytes, `value_len: u32 LE`, the
value bytes, `mime_len: u16 LE` and the mime bytes, in that order, erring
only when the underlying stream write fails. -/
theorem raw_record_layout (e : KVEntry) (d : List UInt8) :
    write_to_stream e ⟨d, d.length, none⟩ =
      .ok ⟨d ++ (0x00 :: (u16le e.key.length ++ e.key ++ u32le e.value.length ++ e.value ++
          u16le e.mime.length ++ e.mime)),
        d.length + (encodeRawBytes e).length, none⟩ := by
  rw [write_to_stream_end e (Eq.refl d.length)]
  rfl

/-- C4 (amended): raw-encode then decode restores the entry whenever key
and MIME fit the `u16` length fields (which Rust `String`s longer than
65535 bytes do not, see the counterexample). -/
theorem raw_roundtrip (e : KVEntry) (hv : e.value.length ≤ 1024)
    (hk : utf8Valid e.key = true) (hm : utf8Valid e.mime = true)
    (hkl : e.key.length ≤ 65535) (hml : e.mime.length ≤ 65535) :
    readEntryBytes (encodeRawBytes e) = .ok e := by
  have hw : wfEntry e := ⟨hk, hm, by omega, by omega, by omega⟩
  have hd0 : (encodeRawBytes e).drop 0 = encodeRawBytes e ++ [] := by simp
  have h := read_encodeRaw hw (encodeRawBytes e) 0 none hd0 (by omega)
  unfold readEntryBytes
  rw [h.1]

/-- Witness for `raw_roundtrip` at a concrete entry. -/
theorem raw_roundtrip_example :
    readEntryBytes (encodeRawBytes ⟨[107], [1, 2], [109]⟩) = .ok ⟨[107], [1, 2], [109]⟩ :=
  raw_roundtrip ⟨[107], [1, 2], [109]⟩ (by decide) (by decide) (by decide) (by decide)
    (by decide)

/-- C3: the compressed encoding writes the flags byte, a 4-byte placeholder
at `P = |d| + 1`, the compression frame from `S = P + 4` to
`E = S + |frame|`, then backpatches the placeholder with `E − S` as a
4-byte little-endian integer and leaves the cursor at `E`. -/
theorem compressed_backpatch (M : Zstd) (e : KVEntry) (d : List UInt8) :
    write_to_stream_compressed M e ⟨d, d.length, none⟩ =
      .ok ⟨d ++ [0x80] ++
          u32le (d.length + 5 + (M.compress (rawBody e)).length - (d.length + 5)) ++
          M.compress (rawBody e),
        d.length + 5 + (M.compress (rawBody e)).length, none⟩ := by
  rw [write_to_stream_compressed_end M e (Eq.refl d.length)]
  have hES : d.length + 5 + (M.compress (rawBody e)).length - (d.length + 5) =
      (M.compress (rawBody e)).length := by
    omega
  rw [hES]
  have hdata : d ++ [0x80] ++ u32le (M.compress (rawBody e)).length ++ M.compress (rawBody e) =
      d ++ encodeCompressedBytes M e := by
    simp [encodeCompressedBytes]
  have hpos : d.length + 5 + (M.compress (rawBody e)).length =
      d.length + (encodeCompressedBytes M e).length := by
    simp only [encodeCompressedBytes, List.length_cons, List.length_append, u32le_length]
    omega
  rw [hdata, hpos]

/-- Witness for `compressed_backpatch` at the concrete compressor instance
and a small entry. -/
theorem compressed_backpatch_example :
    write_to_stream_compressed zstdStore ⟨[107], [1], [109]⟩ ⟨[], 0, none⟩ =
      .ok ⟨[] ++ [0x80] ++
          u32le (0 + 5 + (zstdStore.compress (rawBody ⟨[107], [1], [109]⟩)).length - (0 + 5)) ++
          zstdStore.compress (rawBody ⟨[107], [1], [109]⟩),
        0 + 5 + (zstdStore.compress (rawBody ⟨[107], [1], [109]⟩)).length, none⟩ :=
  compressed_backpatch zstdStore ⟨[107], [1], [109]⟩ []

/-- A concrete entry whose value exceeds the 1024-byte compression
threshold. -/
def bigValueEntry : KVEntry :=
  ⟨[107], List.replicate 1025 170, [109]⟩

/-- C1 (bug evidence): decoding a compressed record always fails, for every
compressor satisfying the Zstd frame format.  The decoder copies the frame
verbatim instead of decompressing it, so the parser reads the frame's magic
bytes `28 B5` as a key length of 46376 and runs off the end of the
buffered block. -/
theorem compressed_roundtrip_error (M : Zstd) :
    1024 < bigValueEntry.value.length ∧
    readEntryBytes (encodeCompressedBytes M bigValueEntry) =
      .error (.io .unexpectedEof) := by
  refine ⟨?_, ?_⟩
  · have h : bigValueEntry.value.length = 1025 := by
      rw [show bigValueEntry.value = List.replicate 1025 170 from rfl, List.length_replicate]
    omega
  unfold readEntryBytes encodeCompressedBytes
  set F := M.compress (rawBody bigValueEntry) with hFdef
  have hF4 : F.take 4 = [0x28, 0xB5, 0x2F, 0xFD] := by
    rw [hFdef]
    exact M.compress_take4 _
  have hFlen : F.length ≤ 1551 := by
    have hb := M.compress_len_le (rawBody bigValueEntry)
    have hbody : (rawBody bigValueEntry).length = 1035 := by
      simp only [rawBody, bigValueEntry, List.length_append, u16le_length, u32le_length,
        List.length_replicate, List.length_cons, List.length_nil]
    rw [hbody] at hb
    rw [hFdef]
    omega
  have hF4len : 4 ≤ F.length := by
    have h := congrArg List.length hF4
    rw [List.length_take] at h
    simp only [List.length_cons, List.length_nil] at h
    omega
  have s1 := readU8_step (0x80 :: (u32le F.length ++ F)) 0 none 0x80 (u32le F.length ++ F)
    rfl (Nat.zero_le _)
  have s2 := readExact_step (0x80 :: (u32le F.length ++ F)) (0 + 1) 4 none (u32le F.length) F
    s1.2.1 (u32le_length F.length) s1.2.2
  have hlen32 : leToNat (u32le F.length) = F.length := by
    rw [leToNat_u32le]
    exact Nat.mod_eq_of_lt (by omega)
  have s3 := readExact_step (0x80 :: (u32le F.length ++ F)) (0 + 1 + 4) F.length none F []
    (by rw [List.append_nil]; exact s2.2.1) rfl s2.2.2
  have hF2 : F.take 2 = [0x28, 0xB5] := by
    have h1 : F.take 2 = (F.take 4).take 2 := by
      rw [List.take_take]
      simp
    rw [h1, hF4]
    rfl
  have i1 := readExact_step F 0 2 none (F.take 2) (F.drop 2)
    (by rw [List.drop_zero, List.take_append_drop])
    ((congrArg List.length hF2).trans rfl) (Nat.zero_le _)
  have hkeyLen : leToNat (F.take 2) = 46376 := by
    rw [hF2]
    rfl
  have ifail : readExact ⟨F, 0 + 2, none⟩ 46376 =
      .error (.io .unexpectedEof, ⟨F, F.length, none⟩) :=
    readExact_fail_within (by omega) (by omega)
  rw [read_from_stream, s1.1]
  simp only [if_pos (show (0x80 : UInt8) &&& 0x80 ≠ 0 by decide)]
  simp only [s2.1]
  simp only [hlen32]
  simp only [s3.1]
  simp only [read_from_stream_impl]
  simp only [i1.1]
  simp only [hkeyLen]
  simp only [ifail]

/-- Witness for `compressed_roundtrip_error` at the concrete compressor
instance. -/
theorem compressed_roundtrip_error_example :
    1024 < bigValueEntry.value.length ∧
    readEntryBytes (encodeCompressedBytes zstdStore bigValueEntry) =
      .error (.io .unexpectedEof) :=
  compressed_roundtrip_error zstdStore

/-- Decoding a raw record whose declared value length exceeds the bytes
that remain fails with `UnexpectedEof` while reading the value. -/
theorem read_trunc_at_value (d : List UInt8) (p : Nat) (c : Option Nat)
    (kb key vb rest : List UInt8)
    (hd : d.drop p = 0x00 :: (kb ++ (key ++ (vb ++ rest))))
    (hkb : kb.length = 2) (hkey : key.length = leToNat kb) (hvb : vb.length = 4)
    (hp : p ≤ d.length)
    (hfail : d.length < p + 1 + 2 + key.length + 4 + leToNat vb) :
    read_from_stream ⟨d, p, c⟩ = .error (.io .unexpectedEof, ⟨d, d.length, c⟩) := by
  have s1 := readU8_step d p c 0x00 (kb ++ (key ++ (vb ++ rest))) hd hp
  have s2 := readExact_step d (p + 1) 2 c kb (key ++ (vb ++ rest)) s1.2.1 hkb s1.2.2
  have s3 := readExact_step d (p + 1 + 2) (leToNat kb) c key (vb ++ rest) s2.2.1 hkey s2.2.2
  have s4 := readExact_step d (p + 1 + 2 + leToNat kb) 4 c vb rest s3.2.1 hvb s3.2.2
  have sfail : readExact ⟨d, p + 1 + 2 + leToNat kb + 4, c⟩ (leToNat vb) =
      .error (.io .unexpectedEof, ⟨d, d.length, c⟩) := by
    have hk : key.length = leToNat kb := hkey
    exact readExact_fail_within (by omega) s4.2.2
  rw [read_from_stream, s1.1]
  simp only [if_neg (show ¬((0x00 : UInt8) &&& 0x80 ≠ 0) by decide)]
  rw [read_from_stream_impl, s2.1]
  simp only [s3.1]
  simp only [s4.1]
  simp only [sfail]

/-- A concrete 65536-byte ASCII key: a valid Rust `String` whose byte
length does not fit the `u16` length field. -/
def bigKeyEntry : KVEntry :=
  ⟨List.replicate 65536 97, [], [109]⟩

/-- C4 (counterexample): the raw round-trip fails for a valid-UTF-8 key of
65536 bytes and a value within the threshold.  The encoder writes the key
length as `65536 % 2^16 = 0`, so the decoder reads an empty key, then
misparses four key bytes `61 61 61 61` as a value length of 1633771873 and
fails with `UnexpectedEof`. -/
theorem big_key_roundtrip_error :
    utf8Valid bigKeyEntry.key = true ∧
    bigKeyEntry.value.length ≤ 1024 ∧
    65535 < bigKeyEntry.key.length ∧
    readEntryBytes (encodeRawBytes bigKeyEntry) = .error (.io .unexpectedEof) := by
  refine ⟨utf8Valid_replicate_a 65536, by decide, ?_, ?_⟩
  · have h : bigKeyEntry.key.length = 65536 := by
      rw [show bigKeyEntry.key = List.replicate 65536 (97 : UInt8) from rfl,
        List.length_replicate]
    omega
  refine readEntryBytes_error _ (.io .unexpectedEof)
    ⟨encodeRawBytes bigKeyEntry, (encodeRawBytes bigKeyEntry).length, none⟩ ?_
  generalize hDdef : encodeRawBytes bigKeyEntry = D
  have h44 : List.replicate 4 (97 : UInt8) = [97, 97, 97, 97] := rfl
  have hsplit4 : List.replicate 65536 (97 : UInt8) =
      [97, 97, 97, 97] ++ List.replicate 65532 97 := by
    conv_lhs => rw [show (65536 : Nat) = 4 + 65532 from rfl]
    rw [List.replicate_add, h44]
  have hD2 : D = 0x00 :: (u16le 65536 ++
      ([97, 97, 97, 97] ++ (List.replicate 65532 97 ++
        (u32le 0 ++ (u16le 1 ++ [109]))))) := by
    rw [← hDdef]
    simp only [encodeRawBytes, rawBody, bigKeyEntry, List.length_replicate, List.length_cons,
      List.length_nil, List.append_assoc, List.nil_append, List.append_nil, Nat.zero_add]
    rw [hsplit4, List.append_assoc]
  have hlen2 : D.length = 65546 := by
    have h1 := congrArg List.length hD2
    rw [List.length_cons, List.length_append, List.length_append, List.length_append,
      List.length_append, List.length_append, u16le_length, u16le_length, u32le_length,
      List.length_replicate,
      show ([97, 97, 97, 97] : List UInt8).length = 4 from rfl,
      show ([109] : List UInt8).length = 1 from rfl] at h1
    omega
  have hmain := read_trunc_at_value D 0 none (u16le 65536) []
    [97, 97, 97, 97] (List.replicate 65532 97 ++ (u32le 0 ++ (u16le 1 ++ [109])))
    (by rw [List.drop_zero, hD2, List.nil_append])
    (u16le_length 65536)
    (by rw [leToNat_u16le]; rfl)
    rfl
    (Nat.zero_le _)
    (by
      have h0 : ([] : List UInt8).length = 0 := rfl
      have hlv : leToNat [97, 97, 97, 97] = 1633771873 := rfl
      omega)
  exact hmain

/-- C5 (bug evidence): a log holding the single well-formed compressed
record for the entry `(key "k", value [1], mime "m")` — well-formed in that
its frame really is the compression of the raw body, witnessed by the
second conjunct — opens with an index of 0 entries instead of 1: the
decoder does not decompress the frame, misreads its bytes as a raw body,
hits `UnexpectedEof` inside the buffered block, and the replay loop
mistakes that for end-of-log. -/
theorem open_drops_compressed_record :
    (KVStore.new ⟨encodeCompressedBytes zstdStore ⟨[107], [1], [109]⟩, 0, none⟩).map
        (fun st => st.entries.length) = .ok 0 ∧
    zstdStore.decompress (zstdStore.compress (rawBody ⟨[107], [1], [109]⟩)) =
      some (rawBody ⟨[107], [1], [109]⟩) :=
  ⟨by decide, zstdStore.decompress_compress _⟩

/-- C6: `set` encodes compressed exactly when the value exceeds 1024 bytes
and raw otherwise, re-evaluating the threshold on each call from the
entry alone; the raw record starts with flags `0x00`, the compressed one
with flags `0x80`. -/
theorem set_threshold (M : Zstd) (en : Index) (d k : List UInt8) (v : Entry) :
    KVStore.set M ⟨en, ⟨d, d.length, none⟩⟩ k v =
      (.ok (), ⟨insertA en k v,
        ⟨d ++ (if 1024 < v.value.length
            then encodeCompressedBytes M ⟨k, v.value, v.mime⟩
            else encodeRawBytes ⟨k, v.value, v.mime⟩),
          d.length + (if 1024 < v.value.length
            then encodeCompressedBytes M ⟨k, v.value, v.mime⟩
            else encodeRawBytes ⟨k, v.value, v.mime⟩).length, none⟩⟩) ∧
    (encodeRawBytes ⟨k, v.value, v.mime⟩).headD 0 = 0x00 ∧
    (encodeCompressedBytes M ⟨k, v.value, v.mime⟩).headD 0 = 0x80 := by
  refine ⟨?_, rfl, rfl⟩
  unfold KVStore.set
  dsimp only
  by_cases h : 1024 < v.value.length
  · simp only [if_pos h,
      write_to_stream_compressed_end M ⟨k, v.value, v.mime⟩ (Eq.refl d.length)]
  · simp only [if_neg h,
      write_to_stream_end ⟨k, v.value, v.mime⟩ (Eq.refl d.length)]

/-- C7: `set` updates the index only after the append succeeded; on an
I/O failure it returns the error and leaves the index (hence `get` for the
written key) unchanged. -/
theorem set_result_index (M : Zstd) (st : KVStore) (k : List UInt8) (v : Entry) :
    ((KVStore.set M st k v).fst = .ok () →
      (KVStore.set M st k v).snd.entries = insertA st.entries k v) ∧
    (∀ err, (KVStore.set M st k v).fst = .error err →
      (KVStore.set M st k v).snd.entries = st.entries ∧
      (KVStore.set M st k v).snd.get k = st.get k) := by
  unfold KVStore.set
  dsimp only
  cases hw : (if 1024 < v.value.length
      then write_to_stream_compressed M ⟨k, v.value, v.mime⟩ st.stream
      else write_to_stream ⟨k, v.value, v.mime⟩ st.stream) with
  | ok s' => exact ⟨fun _ => rfl, fun err h => Except.noConfusion h⟩
  | error q =>
    obtain ⟨err', s'⟩ := q
    exact ⟨fun h => Except.noConfusion h, fun err _ => ⟨rfl, rfl⟩⟩

/-- Witness for `set_result_index`: a successful append inserts into the
index; a failed append (capacity-0 stream) leaves the index and `get`
unchanged. -/
theorem set_result_index_example :
    (KVStore.set zstdStore ⟨[], ⟨[], 0, none⟩⟩ [107] ⟨[1], [109]⟩).snd.entries =
      insertA [] [107] ⟨[1], [109]⟩ ∧
    ((KVStore.set zstdStore ⟨[([106], ⟨[9], [110]⟩)], ⟨[], 0, some 0⟩⟩ [107]
          ⟨[1], [109]⟩).snd.entries = [([106], ⟨[9], [110]⟩)] ∧
      (KVStore.set zstdStore ⟨[([106], ⟨[9], [110]⟩)], ⟨[], 0, some 0⟩⟩ [107]
          ⟨[1], [109]⟩).snd.get [107] =
        KVStore.get ⟨[([106], ⟨[9], [110]⟩)], ⟨[], 0, some 0⟩⟩ [107]) :=
  ⟨(set_result_index zstdStore ⟨[], ⟨[], 0, none⟩⟩ [107] ⟨[1], [109]⟩).1 (by decide),
    (set_result_index zstdStore ⟨[([106], ⟨[9], [110]⟩)], ⟨[], 0, some 0⟩⟩ [107]
      ⟨[1], [109]⟩).2 (.io .other) (by decide)⟩

/-- C10: a successful `set` changes the index only at the written key:
`get` on any other key is unchanged. -/
theorem set_frame_other_keys (M : Zstd) (st : KVStore) (k : List UInt8) (v : Entry)
    (q : List UInt8) (hne : q ≠ k) (hok : (KVStore.set M st k v).fst = .ok ()) :
    (KVStore.set M st k v).snd.get q = st.get q := by
  unfold KVStore.set at hok ⊢
  dsimp only at hok ⊢
  cases hw : (if 1024 < v.value.length
      then write_to_stream_compressed M ⟨k, v.value, v.mime⟩ st.stream
      else write_to_stream ⟨k, v.value, v.mime⟩ st.stream) with
  | ok s' =>
    show KVStore.get ⟨insertA st.entries k v, s'⟩ q = st.get q
    unfold KVStore.get
    exact lookupA_insertA_other st.entries k v q hne
  | error p =>
    obtain ⟨err, s'⟩ := p
    rw [hw] at hok
    exact Except.noConfusion hok

/-- Witness for `set_frame_other_keys` at a store holding one other key. -/
theorem set_frame_other_keys_example :
    (KVStore.set zstdStore ⟨[([106], ⟨[9], [110]⟩)], ⟨[], 0, none⟩⟩ [107]
        ⟨[1], [109]⟩).snd.get [106] =
      KVStore.get ⟨[([106], ⟨[9], [110]⟩)], ⟨[], 0, none⟩⟩ [106] :=
  set_frame_other_keys zstdStore ⟨[([106], ⟨[9], [110]⟩)], ⟨[], 0, none⟩⟩ [107]
    ⟨[1], [109]⟩ [106] (by decide) (by decide)

/-- C9: both encoders cast the key and mime lengths to `u16` unchecked:
the written length field is the true length modulo 2^16 — a different
number whenever the string exceeds 65535 bytes — while every byte of the
string is still written: the raw record carries the full key and mime
directly after their truncated length fields, and the compressed record
compresses the same raw body, so an oversize record is inconsistent with
its own length prefix.  `set` accepts such entries without reporting an
error. -/
theorem length_cast_truncation (M : Zstd) (st : KVStore) (k vv vm : List UInt8)
    (hc : st.stream.cap = none) :
    encodeRawBytes ⟨k, vv, vm⟩ =
      0x00 :: (u16le k.length ++ (k ++ (u32le vv.length ++ (vv ++
        (u16le vm.length ++ vm))))) ∧
    encodeCompressedBytes M ⟨k, vv, vm⟩ =
      0x80 :: (u32le (M.compress (rawBody ⟨k, vv, vm⟩)).length ++
        M.compress (rawBody ⟨k, vv, vm⟩)) ∧
    rawBody ⟨k, vv, vm⟩ =
      u16le k.length ++ (k ++ (u32le vv.length ++ (vv ++
        (u16le vm.length ++ vm)))) ∧
    leToNat (u16le k.length) = k.length % 65536 ∧
    leToNat (u16le vm.length) = vm.length % 65536 ∧
    (65535 < k.length → k.length % 65536 ≠ k.length) ∧
    (65535 < vm.length → vm.length % 65536 ≠ vm.length) ∧
    (KVStore.set M st k ⟨vv, vm⟩).fst = .ok () := by
  have hsh : rawBody ⟨k, vv, vm⟩ = u16le k.length ++
      (k ++ (u32le vv.length ++ (vv ++ (u16le vm.length ++ vm)))) := by
    simp [rawBody, List.append_assoc]
  refine ⟨?_, rfl, hsh, leToNat_u16le k.length, leToNat_u16le vm.length,
    fun h => by omega, fun h => by omega, ?_⟩
  · rw [encodeRawBytes, hsh]
  · obtain ⟨en, ⟨d, p, c⟩⟩ := st
    dsimp only at hc
    subst hc
    unfold KVStore.set
    dsimp only
    by_cases h1024 : 1024 < vv.length
    · rw [if_pos h1024]
      obtain ⟨s', hs'⟩ := write_to_stream_compressed_ok M ⟨k, vv, vm⟩ d p
      rw [hs']
    · rw [if_neg h1024]
      obtain ⟨s', hs'⟩ := write_to_stream_ok ⟨k, vv, vm⟩ d p
      rw [hs']

/-- Witness for `length_cast_truncation` at a 65536-byte ASCII key and a
65536-byte ASCII mime string. -/
theorem length_cast_truncation_example :
    encodeRawBytes ⟨List.replicate 65536 97, [1], List.replicate 65536 109⟩ =
      0x00 :: (u16le (List.replicate 65536 (97 : UInt8)).length ++
        (List.replicate 65536 97 ++ (u32le ([1] : List UInt8).length ++
          ([1] ++ (u16le (List.replicate 65536 (109 : UInt8)).length ++
            List.replicate 65536 109))))) ∧
    encodeCompressedBytes zstdStore ⟨List.replicate 65536 97, [1], List.replicate 65536 109⟩ =
      0x80 :: (u32le (zstdStore.compress
          (rawBody ⟨List.replicate 65536 97, [1], List.replicate 65536 109⟩)).length ++
        zstdStore.compress
          (rawBody ⟨List.replicate 65536 97, [1], List.replicate 65536 109⟩)) ∧
    rawBody ⟨List.replicate 65536 97, [1], List.replicate 65536 109⟩ =
      u16le (List.replicate 65536 (97 : UInt8)).length ++
        (List.replicate 65536 97 ++ (u32le ([1] : List UInt8).length ++
          ([1] ++ (u16le (List.replicate 65536 (109 : UInt8)).length ++
            List.replicate 65536 109)))) ∧
    leToNat (u16le (List.replicate 65536 (97 : UInt8)).length) =
      (List.replicate 65536 (97 : UInt8)).length % 65536 ∧
    leToNat (u16le (List.replicate 65536 (109 : UInt8)).length) =
      (List.replicate 65536 (109 : UInt8)).length % 65536 ∧
    (65535 < (List.replicate 65536 (97 : UInt8)).length →
      (List.replicate 65536 (97 : UInt8)).length % 65536 ≠
        (List.replicate 65536 (97 : UInt8)).length) ∧
    (65535 < (List.replicate 65536 (109 : UInt8)).length →
      (List.replicate 65536 (109 : UInt8)).length % 65536 ≠
        (List.replicate 65536 (109 : UInt8)).length) ∧
    (KVStore.set zstdStore ⟨[], ⟨[], 0, none⟩⟩ (List.replicate 65536 97)
      ⟨[1], List.replicate 65536 109⟩).fst = .ok () :=
  length_cast_truncation zstdStore ⟨[], ⟨[], 0, none⟩⟩ (List.replicate 65536 97) [1]
    (List.replicate 65536 109) rfl

end KV
